import Mathlib

/-
Verification of the docshot pagination / rendering / docload pipeline.

The program is shallowly embedded: strings are lists of characters, the
file system is an explicit record of what a directory contains, and the
canvas is a list of text-drawing operations.  The definitions are
translated from the TypeScript sources (src/generator.ts, src/index.ts
and the docload wrapper); the few definitions that instead follow the
wording of the specification are marked as such in their doc comments.
-/

namespace Docshot

/-! ## Pagination (src/generator.ts, generateImages) -/

/-- Ceiling division on naturals, the value Math.ceil(n / l) takes for
natural n and positive l. -/
def ceilDiv (n l : Nat) : Nat := (n + l - 1) / l

/-- The page-splitting loop of generateImages:
for (let i = 0; i < lines.length; i += linesPerPage)
  pages.push(lines.slice(i, i + linesPerPage)).
When linesPerPage = 0 the loop index would not advance; every caller
guarantees a positive value, and we return [] in that unreachable case to
stay total. -/
def paginate {α : Type*} (L : Nat) (xs : List α) : List (List α) :=
  if h : L = 0 ∨ xs.isEmpty then []
  else xs.take L :: paginate L (xs.drop L)
termination_by xs.length
decreasing_by
  push_neg at h
  have hne : xs ≠ [] := by
    intro hcon
    exact absurd (by simp [hcon]) h.2
  simp only [List.length_drop]
  exact Nat.sub_lt (List.length_pos.mpr hne) (Nat.pos_of_ne_zero h.1)

/-- Concatenation of a list of pages, used to state the reconstruction
invariant of the Paginator. -/
def concatAll {α : Type*} (ls : List (List α)) : List α := ls.foldr (· ++ ·) []

theorem concatAll_nil {α : Type*} : concatAll ([] : List (List α)) = [] := rfl

theorem concatAll_cons {α : Type*} (a : List α) (ls : List (List α)) :
    concatAll (a :: ls) = a ++ concatAll ls := rfl

theorem paginate_nil {α : Type*} (L : Nat) : paginate L ([] : List α) = [] := by
  rw [paginate]
  simp

theorem paginate_cons {α : Type*} {L : Nat} {xs : List α} (hL : 0 < L) (hxs : xs ≠ []) :
    paginate L xs = xs.take L :: paginate L (xs.drop L) := by
  rw [paginate]
  simp [hxs, Nat.pos_iff_ne_zero.mp hL]

theorem ceilDiv_zero_left {L : Nat} (hL : 0 < L) : ceilDiv 0 L = 0 := by
  unfold ceilDiv
  exact Nat.div_eq_of_lt (by omega)

theorem ceilDiv_eq {n L : Nat} (hL : 0 < L) (hn : 0 < n) :
    ceilDiv n L = (n - 1) / L + 1 := by
  unfold ceilDiv
  have h1 : n + L - 1 = (n - 1) + L := by omega
  rw [h1, Nat.add_div_right _ hL]

theorem lt_ceilDiv_iff {m n L : Nat} (hL : 0 < L) : m < ceilDiv n L ↔ m * L < n := by
  unfold ceilDiv
  have h1 : m < (n + L - 1) / L ↔ m + 1 ≤ (n + L - 1) / L := Iff.rfl
  rw [h1, Nat.le_div_iff_mul_le hL, Nat.add_mul]
  omega

theorem paginate_join_aux {α : Type*} {L : Nat} (hL : 0 < L) :
    ∀ (n : Nat) (xs : List α), xs.length ≤ n → concatAll (paginate L xs) = xs := by
  intro n
  induction n with
  | zero =>
    intro xs hx
    have hnil : xs = [] := List.eq_nil_of_length_eq_zero (Nat.le_zero.mp hx)
    subst hnil
    simp [paginate_nil, concatAll_nil]
  | succ n ih =>
    intro xs hx
    by_cases hxs : xs = []
    · subst hxs
      simp [paginate_nil, concatAll_nil]
    · rw [paginate_cons hL hxs, concatAll_cons]
      have hpos : 0 < xs.length := List.length_pos.mpr hxs
      have hlen : (xs.drop L).length ≤ n := by
        simp only [List.length_drop]
        omega
      rw [ih _ hlen, List.take_append_drop]

theorem paginate_join {α : Type*} {L : Nat} (hL : 0 < L) (xs : List α) :
    concatAll (paginate L xs) = xs :=
  paginate_join_aux hL xs.length xs le_rfl

theorem paginate_length_aux {α : Type*} {L : Nat} (hL : 0 < L) :
    ∀ (n : Nat) (xs : List α), xs.length ≤ n →
      (paginate L xs).length = ceilDiv xs.length L := by
  intro n
  induction n with
  | zero =>
    intro xs hx
    have hnil : xs = [] := List.eq_nil_of_length_eq_zero (Nat.le_zero.mp hx)
    subst hnil
    simp [paginate_nil, ceilDiv_zero_left hL]
  | succ n ih =>
    intro xs hx
    by_cases hxs : xs = []
    · subst hxs
      simp [paginate_nil, ceilDiv_zero_left hL]
    · rw [paginate_cons hL hxs]
      have hpos : 0 < xs.length := List.length_pos.mpr hxs
      have hlen : (xs.drop L).length ≤ n := by
        simp only [List.length_drop]
        omega
      rw [List.length_cons, ih _ hlen, ceilDiv_eq hL hpos]
      simp only [List.length_drop]
      by_cases hle : xs.length ≤ L
      · have h0 : xs.length - L = 0 := by omega
        rw [h0, ceilDiv_zero_left hL]
        have hd : (xs.length - 1) / L = 0 := Nat.div_eq_of_lt (by omega)
        rw [hd]
      · have hgt : L < xs.length := by omega
        have hpos2 : 0 < xs.length - L := by omega
        rw [ceilDiv_eq hL hpos2]
        have hstep : (xs.length - 1) / L = (xs.length - 1 - L) / L + 1 :=
          Nat.div_eq_sub_div hL (by omega)
        rw [hstep]
        have harg : xs.length - L - 1 = xs.length - 1 - L := by omega
        rw [harg]

theorem paginate_length {α : Type*} {L : Nat} (hL : 0 < L) (xs : List α) :
    (paginate L xs).length = ceilDiv xs.length L :=
  paginate_length_aux hL xs.length xs le_rfl

theorem paginate_getElem?_aux {α : Type*} {L : Nat} (hL : 0 < L) :
    ∀ (n : Nat) (xs : List α), xs.length ≤ n → ∀ (i : Nat),
      i < (paginate L xs).length →
      (paginate L xs)[i]? = some ((xs.drop (i * L)).take L) := by
  intro n
  induction n with
  | zero =>
    intro xs hx i hi
    have hnil : xs = [] := List.eq_nil_of_length_eq_zero (Nat.le_zero.mp hx)
    subst hnil
    rw [paginate_nil] at hi
    simp at hi
  | succ n ih =>
    intro xs hx i hi
    by_cases hxs : xs = []
    · subst hxs
      rw [paginate_nil] at hi
      simp at hi
    · rw [paginate_cons hL hxs] at hi ⊢
      cases i with
      | zero =>
        simp
      | succ i =>
        have hpos : 0 < xs.length := List.length_pos.mpr hxs
        have hlen : (xs.drop L).length ≤ n := by
          simp only [List.length_drop]
          omega
        have hi2 : i < (paginate L (xs.drop L)).length := by
          simpa using Nat.lt_of_succ_lt_succ hi
        have := ih (xs.drop L) hlen i hi2
        rw [List.getElem?_cons_succ, this, List.drop_drop]
        have harg : L + i * L = (i + 1) * L := by ring
        rw [harg]

theorem paginate_getElem {α : Type*} {L : Nat} (hL : 0 < L) (xs : List α)
    (i : Nat) (hi : i < (paginate L xs).length) :
    (paginate L xs)[i] = (xs.drop (i * L)).take L := by
  have h1 := paginate_getElem?_aux hL xs.length xs le_rfl i hi
  rw [List.getElem?_eq_getElem hi] at h1
  exact Option.some_injective _ h1

theorem paginate_mem_bounds {α : Type*} {L : Nat} (hL : 0 < L) :
    ∀ (n : Nat) (xs : List α), xs.length ≤ n → ∀ p ∈ paginate L xs,
      0 < p.length ∧ p.length ≤ L := by
  intro n
  induction n with
  | zero =>
    intro xs hx p hp
    have hnil : xs = [] := List.eq_nil_of_length_eq_zero (Nat.le_zero.mp hx)
    subst hnil
    rw [paginate_nil] at hp
    simp at hp
  | succ n ih =>
    intro xs hx p hp
    by_cases hxs : xs = []
    · subst hxs
      rw [paginate_nil] at hp
      simp at hp
    · rw [paginate_cons hL hxs] at hp
      have hpos : 0 < xs.length := List.length_pos.mpr hxs
      rcases List.mem_cons.mp hp with h | h
      · subst h
        constructor
        · simp only [List.length_take]
          omega
        · simp only [List.length_take]
          omega
      · have hlen : (xs.drop L).length ≤ n := by
          simp only [List.length_drop]
          omega
        exact ih (xs.drop L) hlen p h

theorem paginate_page_full {α : Type*} {L : Nat} (hL : 0 < L) (xs : List α)
    (i : Nat) (h2 : i + 1 < (paginate L xs).length) (h : i < (paginate L xs).length) :
    ((paginate L xs)[i]).length = L := by
  rw [paginate_getElem hL xs i h]
  have hc : i + 1 < ceilDiv xs.length L := by
    rw [paginate_length hL] at h2
    exact h2
  have hmul : (i + 1) * L < xs.length := (lt_ceilDiv_iff hL).mp hc
  rw [Nat.add_mul] at hmul
  simp only [List.length_take, List.length_drop]
  omega

/-- Claim C1: for every Document of N lines and every linesPerPage L > 0,
the Paginator produces ceil(N/L) pages, the i-th page (0-based) is the
contiguous slice of the Document starting at line i*L + 1 (1-based), and
concatenating all pages in index order reproduces the N lines exactly. -/
theorem claim_C1 (xs : List (List Char)) (L : Nat) (hL : 0 < L) :
    (paginate L xs).length = ceilDiv xs.length L ∧
    concatAll (paginate L xs) = xs ∧
    ∀ (i : Nat) (h : i < (paginate L xs).length),
      (paginate L xs)[i] = (xs.drop (i * L)).take L := by
  refine ⟨paginate_length hL xs, paginate_join hL xs, ?_⟩
  intro i h
  exact paginate_getElem hL xs i h

/-- Witness for claim C1 at the document a, b, c with two lines per page. -/
theorem claim_C1_witness :
    0 < 2 ∧
      ((paginate 2 [['a'], ['b'], ['c']]).length =
          ceilDiv ([['a'], ['b'], ['c']] : List (List Char)).length 2 ∧
        concatAll (paginate 2 [['a'], ['b'], ['c']]) = [['a'], ['b'], ['c']] ∧
        ∀ (i : Nat) (h : i < (paginate 2 ([['a'], ['b'], ['c']] : List (List Char))).length),
          (paginate 2 [['a'], ['b'], ['c']])[i] =
            (([['a'], ['b'], ['c']] : List (List Char)).drop (i * 2)).take 2) :=
  ⟨by decide, claim_C1 [['a'], ['b'], ['c']] 2 (by decide)⟩

/-- Claim C2: for every Document and linesPerPage L at least 1, every page
except possibly the last has exactly L lines, and the last page, when one
exists, has between 1 and L lines inclusive. -/
theorem claim_C2 (xs : List (List Char)) (L : Nat) (hL : 1 ≤ L) :
    (∀ (i : Nat) (h2 : i + 1 < (paginate L xs).length) (h : i < (paginate L xs).length),
        ((paginate L xs)[i]).length = L) ∧
    ∀ (hne : paginate L xs ≠ []),
      1 ≤ ((paginate L xs).getLast hne).length ∧
        ((paginate L xs).getLast hne).length ≤ L := by
  constructor
  · intro i h2 h
    exact paginate_page_full hL xs i h2 h
  · intro hne
    have hmem := List.getLast_mem hne
    have hb := paginate_mem_bounds hL xs.length xs le_rfl _ hmem
    exact ⟨hb.1, hb.2⟩

/-- Witness for claim C2 at the document a, b, c with two lines per page. -/
theorem claim_C2_witness :
    1 ≤ 2 ∧
      ((∀ (i : Nat) (h2 : i + 1 < (paginate 2 ([['a'], ['b'], ['c']] : List (List Char))).length)
          (h : i < (paginate 2 ([['a'], ['b'], ['c']] : List (List Char))).length),
          ((paginate 2 [['a'], ['b'], ['c']])[i]).length = 2) ∧
        ∀ (hne : paginate 2 ([['a'], ['b'], ['c']] : List (List Char)) ≠ []),
          1 ≤ ((paginate 2 [['a'], ['b'], ['c']]).getLast hne).length ∧
            ((paginate 2 [['a'], ['b'], ['c']]).getLast hne).length ≤ 2) :=
  ⟨by decide, claim_C2 [['a'], ['b'], ['c']] 2 (by decide)⟩

/-! ## Line classifier (src/generator.ts, getLineColor) -/

def TEXT_COLOR : List Char := "rgb(212, 212, 212)".toList

def COMMENT_COLOR : List Char := "rgb(106, 153, 85)".toList

def KEYWORD_COLOR : List Char := "rgb(86, 156, 214)".toList

def LINE_NUMBER_COLOR : List Char := "rgb(133, 133, 133)".toList

/-- Whitespace as removed by JavaScript String.prototype.trim: ASCII blanks,
line terminators, the no-break space and the byte-order mark. -/
def isJsSpace (c : Char) : Bool :=
  c = ' ' || c = '\t' || c = '\n' || c = '\r' ||
  c = Char.ofNat 11 || c = Char.ofNat 12 || c = Char.ofNat 160 || c = Char.ofNat 65279

/-- line.trim() on character lists. -/
def jsTrim (s : List Char) : List Char :=
  ((s.dropWhile isJsSpace).reverse.dropWhile isJsSpace).reverse

/-- startsL p s holds when p is a leading segment of s, as in s.startsWith(p). -/
def startsL : List Char → List Char → Bool
  | [], _ => true
  | _ :: _, [] => false
  | p :: ps, c :: cs => p = c && startsL ps cs

/-- Word characters of the JavaScript regex word class, deciding the word
boundary written b in a regular expression. -/
def isWordChar (c : Char) : Bool :=
  ('a' ≤ c && c ≤ 'z') || ('A' ≤ c && c ≤ 'Z') || ('0' ≤ c && c ≤ '9') || c = '_'

/-- The keyword alternatives of the regex in getLineColor, in source order. -/
def keywords : List (List Char) :=
  ["function", "const", "let", "var", "class", "import", "export", "return",
   "if", "else", "for", "while", "async", "await", "interface", "type",
   "enum"].map String.toList

/-- The test of the anchored keyword regex in getLineColor: some keyword
alternative is a leading segment of the line and is followed by a word
boundary, that is by the end of the line or by a non-word character.  No
alternative is a leading segment of another, so backtracking order does not
matter and existence over the alternatives is faithful. -/
def keywordTest (t : List Char) : Bool :=
  keywords.any fun kw =>
    startsL kw t &&
    (match t.drop kw.length with
     | [] => true
     | c :: _ => !isWordChar c)

/-- getLineColor from src/generator.ts, with its four branches in source
order, including the markdown-header branch that repeats the test for a
leading number sign. -/
def getLineColor (line : List Char) : List Char :=
  let trimmed := jsTrim line
  if startsL "#".toList trimmed || startsL "//".toList trimmed then COMMENT_COLOR
  else if startsL "#".toList trimmed then KEYWORD_COLOR
  else if keywordTest trimmed then KEYWORD_COLOR
  else TEXT_COLOR

/-- getLineColor with the markdown-header branch removed, used to state that
that branch never determines the result. -/
def getLineColorNoMd (line : List Char) : List Char :=
  let trimmed := jsTrim line
  if startsL "#".toList trimmed || startsL "//".toList trimmed then COMMENT_COLOR
  else if keywordTest trimmed then KEYWORD_COLOR
  else TEXT_COLOR

/-- The display color categories named by the specification. -/
inductive ColorCategory
  | comment
  | keyword
  | default
  deriving DecidableEq

/-- The fixed color attached to each category. -/
def categoryColor : ColorCategory → List Char
  | ColorCategory.comment => COMMENT_COLOR
  | ColorCategory.keyword => KEYWORD_COLOR
  | ColorCategory.default => TEXT_COLOR

/-- The classifier as the specification words it, with exactly three rules
in priority order; written from the specification for comparison with the
source function getLineColor. -/
def classifySpec (line : List Char) : ColorCategory :=
  let t := jsTrim line
  if startsL "#".toList t || startsL "//".toList t then ColorCategory.comment
  else if keywordTest t then ColorCategory.keyword
  else ColorCategory.default

/-- Claim C3: the classifier is a pure function of the line content and
agrees with the three-rule priority order of the specification: comment for
a trimmed line starting with a number sign or a double slash, keyword for a
whole-word keyword at the start of the trimmed line, default otherwise. -/
theorem claim_C3 (line : List Char) :
    getLineColor line = categoryColor (classifySpec line) := by
  unfold getLineColor classifySpec
  by_cases h1 : startsL ['#'] (jsTrim line) = true
  · simp [h1, categoryColor]
  · by_cases h2 : startsL ['/', '/'] (jsTrim line) = true
    · simp [h1, h2, categoryColor]
    · by_cases h3 : keywordTest (jsTrim line) = true
      · simp [h1, h2, h3, categoryColor]
      · simp [h1, h2, h3, categoryColor]

/-- Claim C4: the markdown-header branch of getLineColor is unreachable:
every line whose trimmed content starts with a number sign is classified as
a comment, and deleting the markdown-header branch never changes the
result. -/
theorem claim_C4 :
    (∀ line : List Char, startsL "#".toList (jsTrim line) = true →
        getLineColor line = COMMENT_COLOR) ∧
    ∀ line : List Char, getLineColor line = getLineColorNoMd line := by
  constructor
  · intro line h
    unfold getLineColor
    have h1 : startsL ['#'] (jsTrim line) = true := h
    simp [h1]
  · intro line
    unfold getLineColor getLineColorNoMd
    by_cases h1 : startsL ['#'] (jsTrim line) = true
    · simp [h1]
    · by_cases h2 : startsL ['/', '/'] (jsTrim line) = true
      · simp [h1, h2]
      · simp [h1, h2]

/-- Witness for claim C4 on a concrete markdown-header line. -/
theorem claim_C4_witness :
    startsL "#".toList (jsTrim "# header".toList) = true ∧
      getLineColor "# header".toList = COMMENT_COLOR :=
  ⟨by decide, claim_C4.1 "# header".toList (by decide)⟩

/-! ## File naming (src/generator.ts, the page filename template) -/

/-- Decimal digits of n, most significant first, by repeated division.  The
first argument is fuel; callers instantiate it with n itself, which always
suffices. -/
def decAux : Nat → Nat → List Char
  | 0, _ => []
  | fuel + 1, n =>
    if n = 0 then [] else decAux fuel (n / 10) ++ [Nat.digitChar (n % 10)]

/-- String(n) for a natural number: its decimal digit characters. -/
def natStr (n : Nat) : List Char :=
  if n = 0 then ['0'] else decAux n n

/-- s.padStart(w, c): copies of c are prepended until the length reaches w;
a string already at least w long is returned unchanged. -/
def padStartCh (w : Nat) (c : Char) (s : List Char) : List Char :=
  List.replicate (w - s.length) c ++ s

/-- The page filename template of generateImages: page_ plus
String(currentPage).padStart(3, '0') plus .png, where currentPage is the
0-based page ordinal plus one. -/
def fname (k : Nat) : List Char :=
  "page_".toList ++ (padStartCh 3 '0' (natStr (k + 1)) ++ ".png".toList)

theorem decAux_zero (fuel : Nat) : decAux fuel 0 = [] := by
  cases fuel <;> simp [decAux]

theorem decAux_congr :
    ∀ (f1 f2 n : Nat), n ≤ f1 → n ≤ f2 → decAux f1 n = decAux f2 n := by
  intro f1
  induction f1 with
  | zero =>
    intro f2 n h1 h2
    have hn : n = 0 := Nat.le_zero.mp h1
    subst hn
    rw [decAux_zero, decAux_zero]
  | succ f ih =>
    intro f2 n h1 h2
    by_cases hn : n = 0
    · subst hn
      rw [decAux_zero, decAux_zero]
    · cases f2 with
      | zero => omega
      | succ g =>
        simp only [decAux, if_neg hn]
        have hds : n / 10 < n := Nat.div_lt_self (Nat.pos_of_ne_zero hn) (by omega)
        rw [ih g (n / 10) (by omega) (by omega)]

theorem natStr_lt10 {n : Nat} (h1 : 1 ≤ n) (h2 : n < 10) :
    natStr n = [Nat.digitChar n] := by
  unfold natStr
  rw [if_neg (by omega)]
  cases n with
  | zero => omega
  | succ m =>
    simp only [decAux]
    rw [if_neg (by omega)]
    have hdiv : (m + 1) / 10 = 0 := Nat.div_eq_of_lt (by omega)
    have hmod : (m + 1) % 10 = m + 1 := Nat.mod_eq_of_lt (by omega)
    rw [hdiv, hmod, decAux_zero]
    simp

theorem natStr_ge10 {n : Nat} (h : 10 ≤ n) :
    natStr n = natStr (n / 10) ++ [Nat.digitChar (n % 10)] := by
  have hq : 1 ≤ n / 10 := (Nat.le_div_iff_mul_le (by omega)).mpr (by omega)
  unfold natStr
  rw [if_neg (by omega), if_neg (by omega)]
  cases n with
  | zero => omega
  | succ m =>
    simp only [decAux]
    rw [if_neg (by omega)]
    congr 1
    apply decAux_congr
    · have : (m + 1) / 10 < m + 1 := Nat.div_lt_self (by omega) (by omega)
      omega
    · exact le_rfl

/-- Numeric value of a decimal digit string, used to invert natStr. -/
def decVal (l : List Char) : Nat :=
  l.foldl (fun a c => 10 * a + (c.toNat - 48)) 0

theorem digitChar_toNat {d : Nat} (h : d < 10) : (Nat.digitChar d).toNat = 48 + d := by
  interval_cases d <;> decide

theorem decVal_append_digit (l : List Char) {d : Nat} (h : d < 10) :
    decVal (l ++ [Nat.digitChar d]) = 10 * decVal l + d := by
  unfold decVal
  rw [List.foldl_append]
  simp [digitChar_toNat h]

theorem decVal_natStr : ∀ n : Nat, decVal (natStr n) = n := by
  intro n
  induction n using Nat.strong_induction_on with
  | _ n ih =>
    by_cases h0 : n = 0
    · subst h0
      decide
    · by_cases h10 : n < 10
      · rw [natStr_lt10 (by omega) h10]
        have h1 : decVal ([] ++ [Nat.digitChar n]) = 10 * decVal [] + n :=
          decVal_append_digit [] h10
        simpa [decVal] using h1
      · rw [natStr_ge10 (by omega)]
        rw [decVal_append_digit _ (Nat.mod_lt _ (by omega))]
        rw [ih (n / 10) (Nat.div_lt_self (by omega) (by omega))]
        omega

theorem natStr_inj {m n : Nat} (h : natStr m = natStr n) : m = n := by
  have h1 := congrArg decVal h
  rwa [decVal_natStr, decVal_natStr] at h1

theorem decAux_length_le : ∀ (fuel n k : Nat), n < 10 ^ k → (decAux fuel n).length ≤ k := by
  intro fuel
  induction fuel with
  | zero =>
    intro n k h
    simp [decAux]
  | succ f ih =>
    intro n k h
    by_cases hn : n = 0
    · subst hn
      simp [decAux]
    · simp only [decAux, if_neg hn]
      have hk : 1 ≤ k := by
        cases k with
        | zero =>
          exfalso
          simp at h
          omega
        | succ k => omega
      have h2 : n / 10 < 10 ^ (k - 1) := by
        rw [Nat.div_lt_iff_lt_mul (by omega)]
        have hp : 10 ^ (k - 1) * 10 = 10 ^ k := by
          rw [← pow_succ]
          congr 1
          omega
        rw [hp]
        exact h
      have h3 := ih (n / 10) (k - 1) h2
      simp only [List.length_append, List.length_cons, List.length_nil]
      omega

theorem natStr_length_le {n k : Nat} (hk : 1 ≤ k) (h : n < 10 ^ k) :
    (natStr n).length ≤ k := by
  unfold natStr
  by_cases h0 : n = 0
  · simp [h0]
    omega
  · rw [if_neg h0]
    exact decAux_length_le n n k h

theorem decAux_val_lt : ∀ (fuel n : Nat), n ≤ fuel → n < 10 ^ (decAux fuel n).length := by
  intro fuel
  induction fuel with
  | zero =>
    intro n h
    have hn : n = 0 := Nat.le_zero.mp h
    subst hn
    simp [decAux]
  | succ f ih =>
    intro n h
    by_cases hn : n = 0
    · subst hn
      simp [decAux]
    · simp only [decAux, if_neg hn]
      have hds : n / 10 < n := Nat.div_lt_self (Nat.pos_of_ne_zero hn) (by omega)
      have h1 := ih (n / 10) (by omega)
      simp only [List.length_append, List.length_cons, List.length_nil, Nat.zero_add]
      have h4 : 10 * (n / 10 + 1) ≤ 10 * 10 ^ (decAux f (n / 10)).length :=
        Nat.mul_le_mul_left 10 h1
      have h5 : 10 * 10 ^ (decAux f (n / 10)).length =
          10 ^ ((decAux f (n / 10)).length + 1) := by
        rw [pow_succ]
        ring
      omega

theorem decAux_ne_nil {fuel n : Nat} (h1 : 1 ≤ n) (h2 : n ≤ fuel) :
    decAux fuel n ≠ [] := by
  cases fuel with
  | zero => omega
  | succ f =>
    simp only [decAux, if_neg (by omega : ¬n = 0)]
    simp

theorem natStr_ne_nil (n : Nat) : natStr n ≠ [] := by
  unfold natStr
  by_cases h : n = 0
  · simp [h]
  · rw [if_neg h]
    exact decAux_ne_nil (by omega) le_rfl

theorem decAux_val_ge : ∀ (fuel n : Nat), 1 ≤ n → n ≤ fuel →
    10 ^ ((decAux fuel n).length - 1) ≤ n := by
  intro fuel
  induction fuel with
  | zero =>
    intro n h1 h2
    omega
  | succ f ih =>
    intro n h1 h2
    by_cases h10 : n < 10
    · simp only [decAux, if_neg (by omega : ¬n = 0)]
      rw [Nat.div_eq_of_lt h10, decAux_zero]
      simpa using h1
    · have hq1 : 1 ≤ n / 10 := (Nat.le_div_iff_mul_le (by omega)).mpr (by omega)
      have hds : n / 10 < n := Nat.div_lt_self (by omega) (by omega)
      have hne := decAux_ne_nil hq1 (by omega : n / 10 ≤ f)
      have ihq := ih (n / 10) hq1 (by omega)
      simp only [decAux, if_neg (by omega : ¬n = 0)]
      simp only [List.length_append, List.length_cons, List.length_nil, Nat.zero_add]
      have hlen : 1 ≤ (decAux f (n / 10)).length := by
        cases hdl : decAux f (n / 10) with
        | nil => exact absurd hdl hne
        | cons a l => simp
      have h5 : 10 ^ (decAux f (n / 10)).length =
          10 * 10 ^ ((decAux f (n / 10)).length - 1) := by
        cases hdl : (decAux f (n / 10)).length with
        | zero => omega
        | succ m =>
          simp only [Nat.succ_sub_one]
          rw [pow_succ]
          ring
      have h6 : 10 * 10 ^ ((decAux f (n / 10)).length - 1) ≤ 10 * (n / 10) :=
        Nat.mul_le_mul_left 10 ihq
      simp only [Nat.add_sub_cancel]
      omega

theorem natStr_val_lt (n : Nat) : n < 10 ^ (natStr n).length := by
  unfold natStr
  by_cases h : n = 0
  · simp [h]
  · rw [if_neg h]
    exact decAux_val_lt n n le_rfl

theorem natStr_val_ge {n : Nat} (h : 1 ≤ n) : 10 ^ ((natStr n).length - 1) ≤ n := by
  unfold natStr
  rw [if_neg (by omega)]
  exact decAux_val_ge n n h le_rfl

theorem decAux_head : ∀ (fuel n : Nat), 1 ≤ n → n ≤ fuel →
    ∃ d, 1 ≤ d ∧ d ≤ 9 ∧ (decAux fuel n).head? = some (Nat.digitChar d) := by
  intro fuel
  induction fuel with
  | zero =>
    intro n h1 h2
    omega
  | succ f ih =>
    intro n h1 h2
    by_cases h10 : n < 10
    · refine ⟨n, h1, by omega, ?_⟩
      simp only [decAux, if_neg (by omega : ¬n = 0)]
      rw [Nat.div_eq_of_lt h10, decAux_zero, Nat.mod_eq_of_lt h10]
      rfl
    · have hq1 : 1 ≤ n / 10 := (Nat.le_div_iff_mul_le (by omega)).mpr (by omega)
      have hds : n / 10 < n := Nat.div_lt_self (by omega) (by omega)
      obtain ⟨d, hd1, hd9, hdh⟩ := ih (n / 10) hq1 (by omega)
      refine ⟨d, hd1, hd9, ?_⟩
      simp only [decAux, if_neg (by omega : ¬n = 0)]
      rw [List.head?_append, hdh]
      rfl

theorem natStr_head {n : Nat} (h : 1 ≤ n) :
    ∃ d, 1 ≤ d ∧ d ≤ 9 ∧ (natStr n).head? = some (Nat.digitChar d) := by
  unfold natStr
  rw [if_neg (by omega)]
  exact decAux_head n n h le_rfl

theorem dropWhile_replicate_append (k : Nat) (s : List Char) :
    List.dropWhile (fun c => c == '0') (List.replicate k '0' ++ s) =
      List.dropWhile (fun c => c == '0') s := by
  induction k with
  | zero => simp
  | succ k ih => simpa [List.replicate_succ, List.dropWhile_cons] using ih

theorem digitChar_ne_zero_char {d : Nat} (h1 : 1 ≤ d) (h9 : d ≤ 9) :
    (Nat.digitChar d == '0') = false := by
  interval_cases d <;> decide

theorem dropWhile_zeros_natStr {n : Nat} (h : 1 ≤ n) :
    List.dropWhile (fun c => c == '0') (natStr n) = natStr n := by
  obtain ⟨d, hd1, hd9, hdh⟩ := natStr_head h
  obtain ⟨t, ht⟩ := List.head?_eq_some_iff.mp hdh
  rw [ht, List.dropWhile_cons]
  simp [digitChar_ne_zero_char hd1 hd9]

theorem strip_padStart {n : Nat} (h : 1 ≤ n) :
    List.dropWhile (fun c => c == '0') (padStartCh 3 '0' (natStr n)) = natStr n := by
  unfold padStartCh
  rw [dropWhile_replicate_append, dropWhile_zeros_natStr h]

theorem fname_inj : Function.Injective fname := by
  intro a b hab
  unfold fname at hab
  have h1 : padStartCh 3 '0' (natStr (a + 1)) ++ ".png".toList =
      padStartCh 3 '0' (natStr (b + 1)) ++ ".png".toList :=
    List.append_cancel_left hab
  have h2 : padStartCh 3 '0' (natStr (a + 1)) = padStartCh 3 '0' (natStr (b + 1)) :=
    List.append_cancel_right h1
  have h3 : natStr (a + 1) = natStr (b + 1) := by
    have h4 := congrArg (List.dropWhile (fun c => c == '0')) h2
    rwa [strip_padStart (by omega), strip_padStart (by omega)] at h4
  have h5 := natStr_inj h3
  omega

/-- Strict lexicographic order on character lists, the order of a sorted
directory listing. -/
def strLt (a b : List Char) : Prop := List.Lex (· < ·) a b

theorem strLt_append_left (p : List Char) {a b : List Char} (h : strLt a b) :
    strLt (p ++ a) (p ++ b) := by
  induction p with
  | nil => simpa using h
  | cons c p ih => exact List.Lex.cons ih

theorem strLt_append_of_length_eq {a b : List Char} (h : strLt a b) :
    a.length = b.length → ∀ (s t : List Char), strLt (a ++ s) (b ++ t) := by
  induction h with
  | nil =>
    intro hlen s t
    simp at hlen
  | rel hr =>
    intro hlen s t
    exact List.Lex.rel hr
  | cons h ih =>
    intro hlen s t
    exact List.Lex.cons (ih (by simpa using hlen) s t)

theorem digitChar_lt_digitChar {d e : Nat} (hd : d < 10) (he : e < 10) (h : d < e) :
    Nat.digitChar d < Nat.digitChar e := by
  interval_cases d <;> interval_cases e <;> decide

theorem zero_lt_digitChar {d : Nat} (h1 : 1 ≤ d) (h9 : d ≤ 9) :
    '0' < Nat.digitChar d := by
  interval_cases d <;> decide

theorem natStr_lt_of_length_eq :
    ∀ n m : Nat, 1 ≤ m → m < n → (natStr m).length = (natStr n).length →
      strLt (natStr m) (natStr n) := by
  intro n
  induction n using Nat.strong_induction_on with
  | _ n ih =>
    intro m hm hmn hlen
    by_cases h10 : n < 10
    · rw [natStr_lt10 hm (by omega), natStr_lt10 (by omega) h10]
      exact List.Lex.rel (digitChar_lt_digitChar (by omega) (by omega) hmn)
    · have hn10 : 10 ≤ n := by omega
      by_cases hm10 : m < 10
      · exfalso
        rw [natStr_lt10 hm hm10, natStr_ge10 hn10] at hlen
        simp only [List.length_append, List.length_cons, List.length_nil] at hlen
        have hq1 : 1 ≤ n / 10 := (Nat.le_div_iff_mul_le (by omega)).mpr (by omega)
        have hnil := natStr_ne_nil (n / 10)
        have hlz : (natStr (n / 10)).length = 0 := by omega
        exact hnil (List.eq_nil_of_length_eq_zero hlz)
      · have hmq : 10 ≤ m := by omega
        rw [natStr_ge10 hmq, natStr_ge10 hn10] at hlen ⊢
        have hlen2 : (natStr (m / 10)).length = (natStr (n / 10)).length := by
          simp only [List.length_append, List.length_cons, List.length_nil] at hlen
          omega
        have hqle : m / 10 ≤ n / 10 := Nat.div_le_div_right (by omega)
        rcases lt_or_eq_of_le hqle with hlt | heq
        · have hq1 : 1 ≤ m / 10 := (Nat.le_div_iff_mul_le (by omega)).mpr (by omega)
          have hrec := ih (n / 10) (Nat.div_lt_self (by omega) (by omega)) (m / 10) hq1 hlt hlen2
          exact strLt_append_of_length_eq hrec hlen2 _ _
        · rw [heq]
          apply strLt_append_left
          have hmod : m % 10 < n % 10 := by omega
          exact List.Lex.rel
            (digitChar_lt_digitChar (Nat.mod_lt _ (by omega)) (Nat.mod_lt _ (by omega)) hmod)

theorem natStr_length_mono {m n : Nat} (h : m ≤ n) :
    (natStr m).length ≤ (natStr n).length := by
  by_contra hcon
  push_neg at hcon
  by_cases hm : m = 0
  · subst hm
    have hne := natStr_ne_nil n
    have h1 : 1 ≤ (natStr n).length := by
      cases hd : natStr n with
      | nil => exact absurd hd hne
      | cons a l => simp
    have h2 : (natStr 0).length = 1 := by decide
    omega
  · have h1 : 10 ^ ((natStr m).length - 1) ≤ m := natStr_val_ge (by omega)
    have h2 : n < 10 ^ (natStr n).length := natStr_val_lt n
    have h3 : 10 ^ (natStr n).length ≤ 10 ^ ((natStr m).length - 1) :=
      Nat.pow_le_pow_right (by omega) (by omega)
    omega

theorem padStartCh_length (w : Nat) (c : Char) (s : List Char) :
    (padStartCh w c s).length = max w s.length := by
  unfold padStartCh
  simp only [List.length_append, List.length_replicate]
  omega

theorem pad_natStr_lt {m n : Nat} (hm : 1 ≤ m) (hmn : m < n)
    (hn3 : (natStr n).length ≤ 3) :
    strLt (padStartCh 3 '0' (natStr m)) (padStartCh 3 '0' (natStr n)) := by
  have hmono : (natStr m).length ≤ (natStr n).length := natStr_length_mono (by omega)
  rcases lt_or_eq_of_le hmono with hlt | heq
  · unfold padStartCh
    have hsplit : 3 - (natStr m).length =
        (3 - (natStr n).length) + ((natStr n).length - (natStr m).length) := by omega
    rw [hsplit, List.replicate_add, List.append_assoc]
    apply strLt_append_left
    obtain ⟨d, hd1, hd9, hdh⟩ := natStr_head (show 1 ≤ n by omega)
    obtain ⟨t, ht⟩ := List.head?_eq_some_iff.mp hdh
    have hk : (natStr n).length - (natStr m).length =
        ((natStr n).length - (natStr m).length - 1) + 1 := by omega
    rw [hk, List.replicate_succ, ht]
    exact List.Lex.rel (zero_lt_digitChar hd1 hd9)
  · unfold padStartCh
    rw [heq]
    apply strLt_append_left
    exact natStr_lt_of_length_eq n m hm hmn heq

theorem fname_strLt {a b : Nat} (hab : a < b) (hb : b + 1 ≤ 999) :
    strLt (fname a) (fname b) := by
  unfold fname
  apply strLt_append_left
  have hpow : (10 : Nat) ^ 3 = 1000 := by norm_num
  have h3 : (natStr (b + 1)).length ≤ 3 := natStr_length_le (by omega) (by omega)
  have ha3 : (natStr (a + 1)).length ≤ 3 := natStr_length_le (by omega) (by omega)
  have hpad := pad_natStr_lt (show 1 ≤ a + 1 by omega) (show a + 1 < b + 1 by omega) h3
  apply strLt_append_of_length_eq hpad
  rw [padStartCh_length, padStartCh_length]
  omega

/-- Claim C7: the File Namer maps the 0-based page ordinal k to
page_ then k+1 zero-padded to three digits then .png; the mapping is
injective, and for pages 0 through k with k below 999 the generated names
are strictly increasing in lexicographic order, so sorting them returns
generation order. -/
theorem claim_C7 :
    Function.Injective fname ∧
      ∀ k : Nat, k < 999 →
        List.Pairwise strLt ((List.range (k + 1)).map fname) := by
  refine ⟨fname_inj, ?_⟩
  intro k hk
  rw [List.pairwise_map]
  have hp : List.Pairwise (· < ·) (List.range (k + 1)) := List.pairwise_lt_range (k + 1)
  apply List.Pairwise.imp_of_mem ?_ hp
  intro a b ha hb hab
  have hbk : b ≤ k := by
    have := List.mem_range.mp hb
    omega
  exact fname_strLt hab (by omega)

/-- Witness for claim C7: injectivity applied at page 1 and sortedness of
the first three page names. -/
theorem claim_C7_witness :
    ((1 : Nat) = 1) ∧
      (2 < 999 ∧ List.Pairwise strLt ((List.range (2 + 1)).map fname)) :=
  ⟨claim_C7.1 (rfl : fname 1 = fname 1), by decide, claim_C7.2 2 (by decide)⟩

/-! ## Image reference builder (the docload wrapper) -/

/-- ASCII lowercase conversion, modelling toLowerCase on file names. -/
def lowerAscii (s : List Char) : List Char :=
  s.map fun c => if 'A' ≤ c && c ≤ 'Z' then Char.ofNat (c.toNat + 32) else c

/-- endsL p s holds when p is a trailing segment of s, as in s.endsWith(p). -/
def endsL (p s : List Char) : Bool := startsL p.reverse s.reverse

/-- The png filter of the wrapper: file.toLowerCase().endsWith(.png). -/
def isPng (f : List Char) : Bool := endsL ".png".toList (lowerAscii f)

/-- path.join(dir, file), modelled as concatenation with one separator. -/
def joinP (dir f : List Char) : List Char := dir ++ '/' :: f

/-- Total lexicographic comparison of character lists, the default element
comparison of Array.prototype.sort on strings. -/
def strLeB : List Char → List Char → Bool
  | [], _ => true
  | _ :: _, [] => false
  | a :: as, b :: bs => if a < b then true else if b < a then false else strLeB as bs

/-- Insertion of one element into a sorted list. -/
def insertStr (x : List Char) : List (List Char) → List (List Char)
  | [] => [x]
  | y :: ys => if strLeB x y then x :: y :: ys else y :: insertStr x ys

/-- A stable sort by strLeB, modelling the sort() call on the png paths. -/
def sortStr : List (List Char) → List (List Char)
  | [] => []
  | x :: xs => insertStr x (sortStr xs)

/-- The sorted full paths of the png files of a directory listing:
files.filter(isPng).map(join dir).sort(). -/
def pngFiles (dir : List Char) (files : List (List Char)) : List (List Char) :=
  sortStr ((files.filter isPng).map (joinP dir))

/-- join with a single-space separator. -/
def joinSp : List (List Char) → List Char
  | [] => []
  | [x] => x
  | x :: y :: rest => x ++ ' ' :: joinSp (y :: rest)

/-- The reference string of the wrapper: the png paths, each converted by
rel to a path relative to the working directory and prefixed with the at
sign, joined by single spaces. -/
def systemPrompt (rel : List Char → List Char) (dir : List Char)
    (files : List (List Char)) : List Char :=
  joinSp ((pngFiles dir files).map fun f => '@' :: rel f)

theorem insertStr_length (x : List Char) (l : List (List Char)) :
    (insertStr x l).length = l.length + 1 := by
  induction l with
  | nil => rfl
  | cons y ys ih =>
    unfold insertStr
    by_cases h : strLeB x y
    · simp [h]
    · simp [h, ih]

theorem sortStr_length (l : List (List Char)) : (sortStr l).length = l.length := by
  induction l with
  | nil => rfl
  | cons x xs ih => simp [sortStr, insertStr_length, ih]

theorem insertStr_perm (x : List Char) (l : List (List Char)) :
    List.Perm (insertStr x l) (x :: l) := by
  induction l with
  | nil => exact List.Perm.refl [x]
  | cons y ys ih =>
    unfold insertStr
    by_cases h : strLeB x y
    · rw [if_pos h]
    · rw [if_neg h]
      exact List.Perm.trans (List.Perm.cons y ih) (List.Perm.swap x y ys)

theorem sortStr_perm (l : List (List Char)) : List.Perm (sortStr l) l := by
  induction l with
  | nil => exact List.Perm.refl []
  | cons x xs ih =>
    unfold sortStr
    exact List.Perm.trans (insertStr_perm x (sortStr xs)) (List.Perm.cons x ih)

theorem strLeB_total : ∀ a b : List Char, strLeB a b = true ∨ strLeB b a = true := by
  intro a
  induction a with
  | nil =>
    intro b
    left
    rfl
  | cons c as ih =>
    intro b
    cases b with
    | nil =>
      right
      rfl
    | cons d bs =>
      unfold strLeB
      rcases lt_trichotomy c d with h | h | h
      · left
        simp [h]
      · subst h
        simp only [lt_irrefl, if_false]
        exact ih bs
      · right
        simp [h]

theorem strLeB_trans :
    ∀ a b c : List Char, strLeB a b = true → strLeB b c = true → strLeB a c = true := by
  intro a
  induction a with
  | nil =>
    intro b c h1 h2
    rfl
  | cons x as ih =>
    intro b c h1 h2
    cases b with
    | nil => simp [strLeB] at h1
    | cons y bs =>
      cases c with
      | nil => simp [strLeB] at h2
      | cons z cs =>
        unfold strLeB at h1 h2 ⊢
        rcases lt_trichotomy x y with hxy | hxy | hxy
        · rcases lt_trichotomy y z with hyz | hyz | hyz
          · simp [lt_trans hxy hyz]
          · subst hyz
            simp [hxy]
          · rw [if_neg (asymm hyz), if_pos hyz] at h2
            exact absurd h2 (by simp)
        · subst hxy
          rw [if_neg (lt_irrefl x), if_neg (lt_irrefl x)] at h1
          rcases lt_trichotomy x z with hyz2 | hyz2 | hyz2
          · simp [hyz2]
          · rw [← hyz2] at h2 ⊢
            rw [if_neg (lt_irrefl x), if_neg (lt_irrefl x)] at h2 ⊢
            exact ih bs cs h1 h2
          · rw [if_neg (asymm hyz2), if_pos hyz2] at h2
            exact absurd h2 (by simp)
        · rw [if_neg (asymm hxy), if_pos hxy] at h1
          exact absurd h1 (by simp)

/-- The propositional form of strLeB, for sortedness statements. -/
def strLe (a b : List Char) : Prop := strLeB a b = true

theorem insertStr_pairwise {x : List Char} {l : List (List Char)}
    (h : List.Pairwise strLe l) : List.Pairwise strLe (insertStr x l) := by
  induction l with
  | nil => simp [insertStr]
  | cons y ys ih =>
    unfold insertStr
    rcases List.pairwise_cons.mp h with ⟨hy, hys⟩
    by_cases hxy : strLeB x y = true
    · rw [if_pos hxy]
      refine List.pairwise_cons.mpr ⟨?_, h⟩
      intro z hz
      rcases List.mem_cons.mp hz with rfl | hz
      · exact hxy
      · exact strLeB_trans x y z hxy (hy z hz)
    · rw [if_neg hxy]
      refine List.pairwise_cons.mpr ⟨?_, ih hys⟩
      intro z hz
      have hmem : z ∈ x :: ys := (insertStr_perm x ys).mem_iff.mp hz
      rcases List.mem_cons.mp hmem with hzx | hzys
      · rw [hzx]
        rcases strLeB_total x y with h1 | h1
        · exact absurd h1 hxy
        · exact h1
      · exact hy z hzys

theorem sortStr_pairwise (l : List (List Char)) : List.Pairwise strLe (sortStr l) := by
  induction l with
  | nil => exact List.Pairwise.nil
  | cons x xs ih => exact insertStr_pairwise ih

theorem strLeB_append_left : ∀ (p a b : List Char), strLeB (p ++ a) (p ++ b) = strLeB a b := by
  intro p
  induction p with
  | nil =>
    intro a b
    rfl
  | cons c p ih =>
    intro a b
    simp only [List.cons_append, strLeB]
    rw [if_neg (lt_irrefl c), if_neg (lt_irrefl c)]
    exact ih a b

theorem joinP_eq_append (dir f : List Char) : joinP dir f = (dir ++ ['/']) ++ f := by
  unfold joinP
  simp

/-- Claim C5: on a directory whose listing holds exactly page_001.png and
page_002.png, in either enumeration order, the reference string is exactly
two at-prefixed relative-path tokens joined by one space, in filename
order; and in general the png paths are the lexicographically sorted,
at-prefixed relative paths of the files ending in .png case-insensitively,
joined by single spaces. -/
theorem claim_C5 :
    (∀ (rel : List Char → List Char) (dir : List Char) (files : List (List Char)),
        files = ["page_001.png".toList, "page_002.png".toList] ∨
          files = ["page_002.png".toList, "page_001.png".toList] →
        systemPrompt rel dir files =
          ('@' :: rel (joinP dir "page_001.png".toList)) ++
            ' ' :: '@' :: rel (joinP dir "page_002.png".toList)) ∧
    ∀ (rel : List Char → List Char) (dir : List Char) (files : List (List Char)),
      List.Perm (pngFiles dir files) ((files.filter isPng).map (joinP dir)) ∧
        List.Pairwise strLe (pngFiles dir files) ∧
        systemPrompt rel dir files =
          joinSp ((pngFiles dir files).map fun f => '@' :: rel f) := by
  constructor
  · intro rel dir files hf
    have hle : strLeB (joinP dir "page_001.png".toList) (joinP dir "page_002.png".toList) =
        true := by
      rw [joinP_eq_append, joinP_eq_append, strLeB_append_left]
      decide
    have hgt : strLeB (joinP dir "page_002.png".toList) (joinP dir "page_001.png".toList) =
        false := by
      rw [joinP_eq_append, joinP_eq_append, strLeB_append_left]
      decide
    have hp1 : isPng "page_001.png".toList = true := by decide
    have hp2 : isPng "page_002.png".toList = true := by decide
    rcases hf with rfl | rfl
    · unfold systemPrompt pngFiles
      rw [List.filter_cons, if_pos hp1, List.filter_cons, if_pos hp2, List.filter_nil]
      simp only [List.map_cons, List.map_nil, sortStr, insertStr, hle, if_true]
      simp [joinSp]
    · unfold systemPrompt pngFiles
      rw [List.filter_cons, if_pos hp2, List.filter_cons, if_pos hp1, List.filter_nil]
      simp only [List.map_cons, List.map_nil, sortStr, insertStr, hgt, if_false]
      simp [joinSp]
  · intro rel dir files
    exact ⟨sortStr_perm _, sortStr_pairwise _, rfl⟩

/-- Witness for claim C5 on a concrete two-file directory. -/
theorem claim_C5_witness :
    ((["page_001.png".toList, "page_002.png".toList] : List (List Char)) =
        ["page_001.png".toList, "page_002.png".toList] ∨
      (["page_001.png".toList, "page_002.png".toList] : List (List Char)) =
        ["page_002.png".toList, "page_001.png".toList]) ∧
      systemPrompt id "imgs".toList ["page_001.png".toList, "page_002.png".toList] =
        ('@' :: id (joinP "imgs".toList "page_001.png".toList)) ++
          ' ' :: '@' :: id (joinP "imgs".toList "page_002.png".toList) :=
  ⟨Or.inl rfl, claim_C5.1 id "imgs".toList _ (Or.inl rfl)⟩

/-- What the wrapper observes about the image directory: whether the path
exists, whether it is a directory, and which names it contains. -/
structure DirState where
  present : Bool
  isDir : Bool
  files : List (List Char)

/-- The failure conditions of the wrapper, in source order. -/
inductive LoadError
  | directoryNotFound
  | notADirectory
  | noImagesFound
  deriving DecidableEq

/-- The validation and reference-building sequence of the wrapper:
existsSync, then statSync().isDirectory(), then the png listing with its
emptiness check, then the reference string. -/
def docload (rel : List Char → List Char) (dir : List Char) (st : DirState) :
    Except LoadError (List Char) :=
  if !st.present then Except.error LoadError.directoryNotFound
  else if !st.isDir then Except.error LoadError.notADirectory
  else if (pngFiles dir st.files).length = 0 then Except.error LoadError.noImagesFound
  else Except.ok (systemPrompt rel dir st.files)

theorem pngFiles_len_zero_iff (dir : List Char) (fs : List (List Char)) :
    (pngFiles dir fs).length = 0 ↔ fs.filter isPng = [] := by
  unfold pngFiles
  rw [sortStr_length, List.length_map]
  constructor
  · intro h
    exact List.eq_nil_of_length_eq_zero h
  · intro h
    rw [h]
    rfl

/-- Claim C6: the wrapper fails with DirectoryNotFound exactly when the
directory does not exist, with NotADirectory exactly when the path exists
but is not a directory, and with NoImagesFound exactly when the directory
exists and holds no file ending in .png case-insensitively. -/
theorem claim_C6 (rel : List Char → List Char) (dir : List Char) (st : DirState) :
    (docload rel dir st = Except.error LoadError.directoryNotFound ↔
      st.present = false) ∧
    (docload rel dir st = Except.error LoadError.notADirectory ↔
      st.present = true ∧ st.isDir = false) ∧
    (docload rel dir st = Except.error LoadError.noImagesFound ↔
      st.present = true ∧ st.isDir = true ∧ st.files.filter isPng = []) := by
  unfold docload
  rcases st with ⟨pres, isd, fs⟩
  cases pres
  · simp
  · cases isd
    · simp
    · by_cases hemp : (pngFiles dir fs).length = 0
      · have hfil : fs.filter isPng = [] := (pngFiles_len_zero_iff dir fs).mp hemp
        simp [hemp, hfil]
      · have hfil : ¬fs.filter isPng = [] := fun hc =>
          hemp ((pngFiles_len_zero_iff dir fs).mpr hc)
        simp [hemp, hfil]

/-! ## Line splitting at the entry point (src/index.ts, content.split) -/

/-- content.split at line-feed characters: the segments between line feeds;
an empty content still yields one empty segment, as in JavaScript. -/
def splitNl : List Char → List (List Char)
  | [] => [[]]
  | c :: rest =>
    if c = '\n' then [] :: splitNl rest
    else
      match splitNl rest with
      | [] => [[c]]
      | p :: ps => (c :: p) :: ps

theorem splitNl_ne_nil (s : List Char) : splitNl s ≠ [] := by
  induction s with
  | nil => simp [splitNl]
  | cons c rest ih =>
    unfold splitNl
    by_cases h : c = '\n'
    · simp [h]
    · rw [if_neg h]
      cases hm : splitNl rest with
      | nil => simp
      | cons p ps => simp

/-- Claim C9: splitting any content at line feeds yields at least one line,
so the Document handed to the Paginator is never empty and the convert
pipeline always produces at least one page; the zero-line case of the
pagination loop is unreachable from the file-reading entry point. -/
theorem claim_C9 (content : List Char) :
    splitNl content ≠ [] ∧
      1 ≤ (splitNl content).length ∧
      ∀ L : Nat, 1 ≤ L →
        1 ≤ ceilDiv (splitNl content).length L ∧
          1 ≤ (paginate L (splitNl content)).length := by
  have hne := splitNl_ne_nil content
  have hlen : 1 ≤ (splitNl content).length := by
    cases hd : splitNl content with
    | nil => exact absurd hd hne
    | cons a l => simp
  refine ⟨hne, hlen, ?_⟩
  intro L hL
  have hcd : 1 ≤ ceilDiv (splitNl content).length L := by
    have h1 := (lt_ceilDiv_iff (show 0 < L by omega)).mpr
      (show 0 * L < (splitNl content).length by omega)
    omega
  refine ⟨hcd, ?_⟩
  rw [paginate_length (show 0 < L by omega)]
  exact hcd

/-- Witness for claim C9 on a concrete two-line content. -/
theorem claim_C9_witness :
    1 ≤ 1 ∧
      (1 ≤ ceilDiv (splitNl "a\nb".toList).length 1 ∧
        1 ≤ (paginate 1 (splitNl "a\nb".toList)).length) :=
  ⟨by decide, (claim_C9 "a\nb".toList).2.2 1 (by decide)⟩

/-! ## Argument forwarding (the docload wrapper, claudeArgs) -/

/-- findIndex: the index of the first element satisfying p, if any. -/
def findIdxA {α : Type*} (p : α → Bool) : List α → Option Nat
  | [] => none
  | a :: as => if p a then some 0 else (findIdxA p as).map (· + 1)

/-- The test for the images flag: the argument equals --images or -i. -/
def isImagesFlag (a : List Char) : Bool :=
  a == "--images".toList || a == "-i".toList

/-- The claudeArgs construction of the wrapper: when the images flag is
present, the arguments before it followed by the arguments after its
value; otherwise all arguments unchanged. -/
def removeImagesFlag (args : List (List Char)) : List (List Char) :=
  match findIdxA isImagesFlag args with
  | none => args
  | some i => args.take i ++ args.drop (i + 2)

/-- The final argument vector handed to the external process: claudeArgs
plus the appended system-prompt flag and the reference string. -/
def buildClaudeArgs (args : List (List Char)) (prompt : List Char) : List (List Char) :=
  removeImagesFlag args ++ ["--append-system-prompt".toList, prompt]

theorem findIdxA_none {α : Type*} (p : α → Bool) :
    ∀ l : List α, findIdxA p l = none ↔ ∀ a ∈ l, p a = false := by
  intro l
  induction l with
  | nil => simp [findIdxA]
  | cons a as ih =>
    unfold findIdxA
    cases hpa : p a with
    | true => simp [hpa]
    | false => simp [hpa, ih]

theorem findIdxA_some {α : Type*} (p : α → Bool) :
    ∀ (l : List α) (i : Nat), findIdxA p l = some i →
      i < l.length ∧ (∀ (h : i < l.length), p l[i] = true) ∧
        ∀ (j : Nat), j < i → ∀ (hjl : j < l.length), p l[j] = false := by
  intro l
  induction l with
  | nil =>
    intro i h
    simp [findIdxA] at h
  | cons a as ih =>
    intro i h
    unfold findIdxA at h
    cases hpa : p a with
    | true =>
      rw [hpa, if_pos rfl] at h
      have hi : i = 0 := by
        cases h
        rfl
      subst hi
      refine ⟨by simp, ?_, ?_⟩
      · intro hh
        simpa using hpa
      · intro j hj hjl
        omega
    | false =>
      rw [hpa] at h
      simp only [Bool.false_eq_true, if_false, Option.map_eq_some'] at h
      obtain ⟨k, hk, hki⟩ := h
      obtain ⟨hlt, hpi, hprev⟩ := ih k hk
      subst hki
      refine ⟨by simpa using Nat.succ_lt_succ hlt, ?_, ?_⟩
      · intro hh
        simpa using hpi hlt
      · intro j hj hjl
        cases j with
        | zero => simpa using hpa
        | succ j =>
          have hq := hprev j (by omega) (by simpa using hjl)
          simpa using hq

/-- Claim C10: when forwarding arguments, the wrapper removes only the
first occurrence of the images flag and its immediately following value,
passes every other argument through unchanged and in order, and appends
exactly two arguments, the append-system-prompt flag followed by the
reference string, at the end. -/
theorem claim_C10 (args : List (List Char)) (prompt : List Char) :
    buildClaudeArgs args prompt =
        removeImagesFlag args ++ ["--append-system-prompt".toList, prompt] ∧
    (findIdxA isImagesFlag args = none →
      removeImagesFlag args = args ∧ ∀ a ∈ args, isImagesFlag a = false) ∧
    ∀ i : Nat, findIdxA isImagesFlag args = some i →
      removeImagesFlag args = args.take i ++ args.drop (i + 2) ∧
        i < args.length ∧
        (∀ (h : i < args.length), isImagesFlag args[i] = true) ∧
        (∀ (j : Nat), j < i → ∀ (hjl : j < args.length), isImagesFlag args[j] = false) ∧
        List.Sublist (removeImagesFlag args) args ∧
        (i + 2 ≤ args.length →
          (removeImagesFlag args).length + 2 = args.length) := by
  refine ⟨rfl, ?_, ?_⟩
  · intro hnone
    refine ⟨?_, (findIdxA_none isImagesFlag args).mp hnone⟩
    unfold removeImagesFlag
    rw [hnone]
  · intro i hsome
    obtain ⟨hlt, hpi, hprev⟩ := findIdxA_some isImagesFlag args i hsome
    have hrm : removeImagesFlag args = args.take i ++ args.drop (i + 2) := by
      unfold removeImagesFlag
      rw [hsome]
    refine ⟨hrm, hlt, hpi, hprev, ?_, ?_⟩
    · rw [hrm]
      have h2 : args.drop (i + 2) = List.drop 2 (args.drop i) := (List.drop_drop 2 i args).symm
      have h1 : List.Sublist (args.drop (i + 2)) (args.drop i) := by
        rw [h2]
        exact List.drop_sublist 2 (args.drop i)
      have h3 := List.Sublist.append_left h1 (args.take i)
      conv_rhs => rw [← List.take_append_drop i args]
      exact h3
    · intro hle
      rw [hrm]
      simp only [List.length_append, List.length_take, List.length_drop]
      omega

/-- Witness for claim C10 on a concrete argument vector holding the images
flag at index 1. -/
theorem claim_C10_witness :
    findIdxA isImagesFlag ["-p".toList, "--images".toList, "d".toList, "x".toList] =
        some 1 ∧
      removeImagesFlag ["-p".toList, "--images".toList, "d".toList, "x".toList] =
        ["-p".toList, "--images".toList, "d".toList, "x".toList].take 1 ++
          ["-p".toList, "--images".toList, "d".toList, "x".toList].drop (1 + 2) :=
  ⟨by decide,
    ((claim_C10 ["-p".toList, "--images".toList, "d".toList, "x".toList] "s".toList).2.2
      1 (by decide)).1⟩

/-! ## Page rendering (src/generator.ts, the content-line drawing loop) -/

/-- One fillText call: the text drawn, the fill color in force, and the
coordinates passed.  Coordinates are rationals; the backend rounding of
real pixel positions is outside the model. -/
structure DrawOp where
  text : List Char
  color : List Char
  x : ℚ
  y : ℚ

/-- PADDING from src/generator.ts, as a coordinate. -/
def PADDING : ℚ := 40

/-- The content-line loop of generateImages.  For each line it issues one
fillText of the line number string, built with padStart(5, ' '), plus the
arrow glyph, in the line-number color at x = PADDING, then one fillText of
the line itself in its classified color at x = PADDING plus the measured
width of the number string plus arrow plus one trailing space.  The
measure argument abstracts ctx.measureText; the first numeric argument is
the current 1-based line number, the next two the running y position and
the line height. -/
def drawLines (measure : List Char → ℚ) : Nat → ℚ → ℚ → List (List Char) → List DrawOp
  | _, _, _, [] => []
  | lineNum, y, lh, l :: ls =>
    let lineNumStr := padStartCh 5 ' ' (natStr lineNum)
    DrawOp.mk (lineNumStr ++ ['→']) LINE_NUMBER_COLOR PADDING y ::
      DrawOp.mk l (getLineColor l)
        (PADDING + measure (lineNumStr ++ ['→', ' '])) y ::
      drawLines measure (lineNum + 1) (y + lh) lh ls

/-- s.padEnd(w, c): copies of c appended until the length reaches w. -/
def padEndCh (w : Nat) (c : Char) (s : List Char) : List Char :=
  s ++ List.replicate (w - s.length) c

/-- The drawing loop as claim C8 words it: the line number right-padded to
five characters, and the text offset by the measured width of exactly the
drawn prefix.  Written from the claim for comparison with drawLines. -/
def drawLinesClaim (measure : List Char → ℚ) : Nat → ℚ → ℚ → List (List Char) → List DrawOp
  | _, _, _, [] => []
  | lineNum, y, lh, l :: ls =>
    let lineNumStr := padEndCh 5 ' ' (natStr lineNum)
    DrawOp.mk (lineNumStr ++ ['→']) LINE_NUMBER_COLOR PADDING y ::
      DrawOp.mk l (getLineColor l)
        (PADDING + measure (lineNumStr ++ ['→'])) y ::
      drawLinesClaim measure (lineNum + 1) (y + lh) lh ls

/-- A concrete measure for witnesses: the character count of the text. -/
def exMeasure (s : List Char) : ℚ := s.length

/-- Counterexample to claim C8 as stated: on a one-line page the renderer
draws the number left-padded, not right-padded, so the operations differ
from the claimed ones already in their drawn texts. -/
theorem claim_C8_cex :
    drawLines exMeasure 1 120 22 ["hello".toList] ≠
      drawLinesClaim exMeasure 1 120 22 ["hello".toList] := by
  intro h
  have h2 := congrArg (fun ops => ops.map DrawOp.text) h
  simp only [drawLines, drawLinesClaim, List.map_cons, List.map_nil] at h2
  exact absurd h2 (by decide)

theorem drawLines_length (measure : List Char → ℚ) :
    ∀ (ls : List (List Char)) (s : Nat) (y lh : ℚ),
      (drawLines measure s y lh ls).length = 2 * ls.length := by
  intro ls
  induction ls with
  | nil =>
    intro s y lh
    rfl
  | cons l ls ih =>
    intro s y lh
    simp only [drawLines, List.length_cons, ih]
    ring

theorem drawLines_drop (measure : List Char → ℚ) :
    ∀ (i : Nat) (ls : List (List Char)) (s : Nat) (y lh : ℚ),
      (drawLines measure s y lh ls).drop (2 * i) =
        drawLines measure (s + i) (y + lh * i) lh (ls.drop i) := by
  intro i
  induction i with
  | zero =>
    intro ls s y lh
    simp
  | succ i ih =>
    intro ls s y lh
    cases ls with
    | nil => simp [drawLines]
    | cons l ls =>
      have e1 : 2 * (i + 1) = 2 * i + 1 + 1 := by ring
      rw [e1]
      simp only [drawLines, List.drop_succ_cons]
      rw [ih ls (s + 1) (y + lh) lh]
      have hs : s + 1 + i = s + (i + 1) := by omega
      have hy : y + lh + lh * (i : ℚ) = y + lh * ((i : ℚ) + 1) := by ring
      have hc : ((i : ℚ)) + 1 = ((i + 1 : Nat) : ℚ) := by push_cast; ring
      rw [hs, hy, hc]

/-- Claim C8 as amended: for every content line, the muted prefix drawn is
the 1-based line number left-padded with spaces to five characters, in
effect right-aligned, followed by the arrow glyph, drawn at x = PADDING,
and the line text is drawn in its classified color offset horizontally by
the measured width of that prefix followed by one further space. -/
theorem claim_C8 (measure : List Char → ℚ) (ls : List (List Char))
    (s : Nat) (y lh : ℚ) (i : Nat) (hi : i < ls.length) :
    (drawLines measure s y lh ls).length = 2 * ls.length ∧
    (drawLines measure s y lh ls).drop (2 * i) =
      DrawOp.mk (padStartCh 5 ' ' (natStr (s + i)) ++ ['→']) LINE_NUMBER_COLOR
          PADDING (y + lh * i) ::
        DrawOp.mk ls[i] (getLineColor ls[i])
          (PADDING + measure (padStartCh 5 ' ' (natStr (s + i)) ++ ['→', ' ']))
          (y + lh * i) ::
        drawLines measure (s + i + 1) (y + lh * i + lh) lh (ls.drop (i + 1)) := by
  refine ⟨drawLines_length measure ls s y lh, ?_⟩
  rw [drawLines_drop measure i ls s y lh, List.drop_eq_getElem_cons hi]
  simp only [drawLines]

/-- Witness for the amended claim C8 on a concrete one-line page. -/
theorem claim_C8_witness :
    0 < (["hi".toList] : List (List Char)).length ∧
      ((drawLines exMeasure 1 120 22 ["hi".toList]).length =
          2 * (["hi".toList] : List (List Char)).length ∧
        (drawLines exMeasure 1 120 22 ["hi".toList]).drop (2 * 0) =
          DrawOp.mk (padStartCh 5 ' ' (natStr (1 + 0)) ++ ['→']) LINE_NUMBER_COLOR
              PADDING (120 + 22 * ((0 : Nat) : ℚ)) ::
            DrawOp.mk (["hi".toList] : List (List Char))[0]
              (getLineColor (["hi".toList] : List (List Char))[0])
              (PADDING + exMeasure (padStartCh 5 ' ' (natStr (1 + 0)) ++ ['→', ' ']))
              (120 + 22 * ((0 : Nat) : ℚ)) ::
            drawLines exMeasure (1 + 0 + 1) (120 + 22 * ((0 : Nat) : ℚ) + 22) 22
              ((["hi".toList] : List (List Char)).drop (0 + 1))) :=
  ⟨by decide, claim_C8 exMeasure ["hi".toList] 1 120 22 0 (by decide)⟩

end Docshot
